import Mathlib

/-!
Verification of the PartiSn input-deck core (pyne/partisn.py): the
coordinate-system resolver (`_get_coord_sys`), the per-voxel composition
aggregation, zone deduplication and zone-array construction (`_get_zones`),
and the material-library conversion (`_get_material_lib`).

Machine floats are modelled as exact rationals; Python dicts keyed by small
dense integers (whose CPython-2 iteration order is ascending) are modelled as
association lists in key order; a raised exception (KeyError, NameError) is
modelled as `Option.none`.
-/

namespace Partisn

/-- One voxel's composition: the parallel lists `zones[z]['mat']` and
`zones[z]['vol_frac']` from `_get_zones`. -/
structure Comp where
  mats : List String
  fracs : List ℚ
deriving DecidableEq

/-- The tolerance `1e-8` passed as `rtol` to `np.allclose` (whose `atol`
stays at its default, also `1e-8`). -/
def eps : ℚ := 1 / 100000000

/-- Model of `np.allclose(a, b, rtol=1e-8)`: elementwise `|a - b| <= atol + rtol*|b|`
with `atol = 1e-8` (numpy default) and `rtol = 1e-8`.  The length guard
models the shape requirement of broadcasting. -/
def allcloseB (a b : List ℚ) : Bool :=
  a.length == b.length &&
    (a.zip b).all (fun p => decide (|p.1 - p.2| ≤ eps + eps * |p.2|))

/-- The zone-match test of `_get_zones`:
`vals['mat'] == info['mat'] and np.allclose(vals['vol_frac'], info['vol_frac'], rtol=1e-8)`. -/
def matchesB (vals info : Comp) : Bool :=
  vals.mats == info.mats && allcloseB vals.fracs info.fracs

/-- The void/graveyard test of `_get_zones`:
`vals['mat'] in [['mat:Vacuum'], ['mat:vacuum'], ['mat:graveyard'], ['mat:Graveyard']]`.
An exact comparison against four fixed spellings. -/
def isVoidB (vals : Comp) : Bool :=
  vals.mats == ["mat:Vacuum"] || vals.mats == ["mat:vacuum"] ||
    vals.mats == ["mat:graveyard"] || vals.mats == ["mat:Graveyard"]

/-- Character-wise lowercasing (the kernel-computable model of
`str.lower()`). -/
def lowerStr (s : String) : String := ⟨s.data.map Char.toLower⟩

/-- Spec-side predicate (for comparison with `isVoidB`): the composition is a
single entry whose material matches one of the void/graveyard sentinel names
case-insensitively, as the specification describes the zone-0 rule. -/
def isVoidCI (vals : Comp) : Bool :=
  vals.mats.map lowerStr == ["mat:vacuum"] ||
    vals.mats.map lowerStr == ["mat:graveyard"]

/-- State of the deduplication loop in `_get_zones`: the registry
`zones_mats` (zone `k` is entry `k-1`), the zone counter `z`, the loop flags
`match`/`first`, the last matched zone `y`, and the accumulated
`voxel_zone` assignments in traversal order. -/
structure DedupState where
  zones_mats : List Comp
  z : ℕ
  matched : Bool
  first : Bool
  y : ℕ
  voxel_zone : List (ℕ × ℕ)
deriving DecidableEq

/-- The inner scan `for zone, info in zones_mats.iteritems(): ...` of
`_get_zones`: zones are visited in ascending number (`k` starts at 1); on a
match the loop breaks with `match = True, y = zone`; otherwise `match` is set
to `False` at each step.  Returns the final `(match, y)`. -/
def scanZones (vals : Comp) : List Comp → ℕ → Bool → ℕ → Bool × ℕ
  | [], _, m, y => (m, y)
  | info :: rest, k, _, y =>
    if matchesB vals info then (true, k) else scanZones vals rest (k + 1) false y

/-- One iteration of the outer loop `for i, vals in zones.iteritems()` of
`_get_zones`, transcribed branch for branch. -/
def dedupStep (st : DedupState) (iv : ℕ × Comp) : DedupState :=
  let my := scanZones iv.2 st.zones_mats 1 st.matched st.y
  if st.first || !my.1 then
    if isVoidB iv.2 then
      { st with
        matched := my.1
        y := my.2
        voxel_zone := st.voxel_zone ++ [(iv.1, 0)] }
    else
      { zones_mats := st.zones_mats ++ [iv.2]
        z := st.z + 1
        matched := my.1
        first := false
        y := my.2
        voxel_zone := st.voxel_zone ++ [(iv.1, st.z + 1)] }
  else
    if isVoidB iv.2 then
      { st with
        matched := my.1
        y := my.2
        voxel_zone := st.voxel_zone ++ [(iv.1, 0)] }
    else
      { st with
        matched := my.1
        y := my.2
        voxel_zone := st.voxel_zone ++ [(iv.1, my.2)] }

/-- Initial state of the deduplication loop
(`voxel_zone = {}`, `zones_mats = {}`, `z = 0`, `match = False`, `first = True`). -/
def initState : DedupState := ⟨[], 0, false, true, 0, []⟩

/-- The full deduplication loop of `_get_zones` over the voxels in traversal
order (ascending voxel index, the CPython-2 iteration order of the dense
integer-keyed dict `zones`). -/
def dedup (voxels : List (ℕ × Comp)) : DedupState :=
  voxels.foldl dedupStep initState

/-- Position of the first registry entry matching `vals`, if any. -/
def findMatchIdx (vals : Comp) : List Comp → Option ℕ
  | [] => none
  | info :: rest =>
    if matchesB vals info then some 0 else (findMatchIdx vals rest).map (· + 1)

/-- The zone number the loop assigns to a voxel with composition `c` when the
registry is `reg`: 0 for void, the first matching zone, else a fresh number. -/
def zoneFor (reg : List Comp) (c : Comp) : ℕ :=
  if isVoidB c then 0 else
    match findMatchIdx c reg with
    | some j => j + 1
    | none => reg.length + 1

/-- The registry after the loop processes a voxel with composition `c`. -/
def regUpd (reg : List Comp) (c : Comp) : List Comp :=
  if isVoidB c then reg else
    match findMatchIdx c reg with
    | some _ => reg
    | none => reg ++ [c]

/-- Flag-free reformulation of one loop iteration (proved equivalent to
`dedupStep` below). -/
def cleanStep (s : List Comp × List (ℕ × ℕ)) (v : ℕ × Comp) :
    List Comp × List (ℕ × ℕ) :=
  (regUpd s.1 v.2, s.2 ++ [(v.1, zoneFor s.1 v.2)])

/-- Flag-free reformulation of the whole deduplication loop. -/
def cleanDedup (voxels : List (ℕ × Comp)) : List Comp × List (ℕ × ℕ) :=
  voxels.foldl cleanStep ([], [])

/-- Loop invariant tying the literal state to the flag-free one: the counter
equals the registry size, `first` holds exactly while the registry is empty,
and `match` is still `False` while the registry is empty. -/
def DInv (st : DedupState) : Prop :=
  st.z = st.zones_mats.length ∧ st.first = st.zones_mats.isEmpty ∧
    (st.zones_mats = [] → st.matched = false)

/-- The mesh handle of `_get_coord_sys`: per-axis division sequences as
returned by `mesh.structured_get_divisions`. -/
structure MeshDiv where
  x : List ℚ
  y : List ℚ
  z : List ℚ

/-- The active-axis string of `_get_coord_sys` (`coord_sys`), built by testing
`x`, then `y`, then `z` for more than two division points. -/
def coordSysStr (mesh : MeshDiv) : List String :=
  (if mesh.x.length > 2 then ["x"] else []) ++
    (if mesh.y.length > 2 then ["y"] else []) ++
    (if mesh.z.length > 2 then ["z"] else [])

/-- Model of `mesh.structured_get_divisions(i)` for an axis symbol `i`. -/
def divisionsOf (mesh : MeshDiv) (ax : String) : List ℚ :=
  if ax = "x" then mesh.x else if ax = "y" then mesh.y else mesh.z

/-- The `bounds` dict of `_get_coord_sys`: division sequences keyed by the
active-axis symbols, in active-axis order. -/
def boundsOf (mesh : MeshDiv) : List (String × List ℚ) :=
  (coordSysStr mesh).map (fun ax => (ax, divisionsOf mesh ax))

/-- Model of `_get_coord_sys`: derives `IGEOM` from the number of active axes and
returns it with `bounds`.  With zero active axes no branch assigns `IGEOM`
and the function dies with an unbound-local error, modelled as `none`. -/
def getCoordSys (mesh : MeshDiv) : Option (String × List (String × List ℚ)) :=
  let cs := coordSysStr mesh
  if cs.length = 1 then some ("SLAB", boundsOf mesh)
  else if cs.length = 2 then some ("X-Y", boundsOf mesh)
  else if cs.length = 3 then some ("X-Y-Z", boundsOf mesh)
  else none

/-- The value `im` in `_get_zones`: `len(bounds['x']) - 1` if `'x'` is an active axis,
else 1. -/
def im (bounds : List (String × List ℚ)) : ℕ :=
  match bounds.lookup ("x") with
  | some l => l.length - 1
  | none => 1

/-- The value `jm` in `_get_zones`. -/
def jm (bounds : List (String × List ℚ)) : ℕ :=
  match bounds.lookup ("y") with
  | some l => l.length - 1
  | none => 1

/-- The value `km` in `_get_zones`. -/
def km (bounds : List (String × List ℚ)) : ℕ :=
  match bounds.lookup ("z") with
  | some l => l.length - 1
  | none => 1

/-- Spec-side row count (for comparison with the code's `im`): the interval
count of the first active axis, as the specification describes the zone-array
shape. -/
def specFirstActiveRows (bounds : List (String × List ℚ)) : ℕ :=
  match bounds with
  | [] => 1
  | b :: _ => b.2.length - 1

/-- The inner loop `for jk in range(jm*km): ZONES[i,jk] = voxel_zone[n]; n += 1`
of `_get_zones`, collecting one row of `count` entries starting at voxel
index `n`; a missing key (Python `KeyError`) yields `none`. -/
def collectRow (vz : List (ℕ × ℕ)) : ℕ → ℕ → Option (List ℕ)
  | _, 0 => some []
  | n, Nat.succ k =>
    match vz.lookup n, collectRow vz (n + 1) k with
    | some zval, some rest => some (zval :: rest)
    | _, _ => none

/-- The outer loop `for i in range(im)` of the array fill in `_get_zones`,
with the running voxel counter `n` carried across rows. -/
def collectRows (vz : List (ℕ × ℕ)) (cols : ℕ) : ℕ → ℕ → Option (List (List ℕ))
  | _, 0 => some []
  | n, Nat.succ r =>
    match collectRow vz n cols, collectRows vz cols (n + cols) r with
    | some row, some rest => some (row :: rest)
    | _, _ => none

/-- The `ZONES` array construction of `_get_zones`: an `im` by `jm*km` array
filled from `voxel_zone` in increasing voxel-index order. -/
def zonesArray (bounds : List (String × List ℚ)) (vz : List (ℕ × ℕ)) :
    Option (List (List ℕ)) :=
  collectRows vz (jm bounds * km bounds) 0 (im bounds)

/-- The coord-then-zones portion of `write_partisn_input`:
`_get_coord_sys` is called first (line 130) and `_get_zones` only afterwards
(line 140), so a coordinate-system failure aborts before any zone
computation. -/
def partisnPipeline (mesh : MeshDiv) (voxels : List (ℕ × Comp)) :
    Option (String × List (List ℕ) × List Comp) :=
  (getCoordSys mesh).bind fun ib =>
    let st := dedup voxels
    (zonesArray ib.2 st.voxel_zone).map fun zarr => (ib.1, zarr, st.zones_mats)

/-- One discretization record of one voxel folded into the running
composition (the duplicate-eliminating loop of `_get_zones`, lines 278-288):
resolve the cell to its material; if present, add the volume fraction to
every position holding that material, else append a new entry. -/
def addCell (f : ℕ → String) (c : Comp) (rec : ℕ × ℚ) : Comp :=
  if f rec.1 ∈ c.mats then
    { mats := c.mats
      fracs := (c.mats.zip c.fracs).map
        (fun p => if p.1 = f rec.1 then p.2 + rec.2 else p.2) }
  else
    { mats := c.mats ++ [f rec.1]
      fracs := c.fracs ++ [rec.2] }

/-- The per-voxel composition aggregation of `_get_zones`: fold the voxel's
`(cell, vol_frac)` records, in record order, into a merged composition,
where `f` is the `mat_assigns` cell-to-material table. -/
def mergeVoxelComp (f : ℕ → String) (recs : List (ℕ × ℚ)) : Comp :=
  recs.foldl (addCell f) ⟨[], []⟩

/-- Spec-side description of "first-seen order": the distinct values of a
list, each kept at its first occurrence. -/
def firstSeen (l : List String) : List String :=
  l.foldl (fun acc m => if m ∈ acc then acc else acc ++ [m]) []

/-- Python dict assignment `d[k] = v` on an association list: overwrite in
place if the key is present, else append. -/
def dictInsert (d : List (ℕ × ℚ)) (k : ℕ) (v : ℚ) : List (ℕ × ℚ) :=
  if (d.lookup k).isSome then
    d.map (fun p => if p.1 = k then (p.1, v) else p)
  else d ++ [(k, v)]

/-- The `[at/cc]` to `[at/b-cm]` conversion factor `10.**-24` of
`_get_material_lib`. -/
def atomConv : ℚ := 1 / 10 ^ 24

/-- The contents, after the whole loop of `_get_material_lib`, of the single
`comp_list` dict that is created once before the loop: every material's
atom-density entries inserted into the one shared dict, scaled by
`atomConv`.  Input: `mats_collapsed` with values already converted by
`to_atom_dens` (an out-of-scope collaborator). -/
def finalCompList (mats : List (String × List (ℕ × ℚ))) : List (ℕ × ℚ) :=
  mats.foldl
    (fun acc p => p.2.foldl (fun a q => dictInsert a q.1 (q.2 * atomConv)) acc) []

/-- The dict `mat_lib` returned by `_get_material_lib`: because `comp_list` is one
shared dict assigned to every key (`mat_lib[mat_name] = comp_list` inside the
loop), every material name ends up bound to the same dict, whose contents
after the loop are `finalCompList`. -/
def getMaterialLib (mats : List (String × List (ℕ × ℚ))) :
    List (String × List (ℕ × ℚ)) :=
  mats.map (fun p => (p.1, finalCompList mats))

/-- Invariant of the per-voxel aggregation loop after the records `done`
have been folded into the running composition `c`: materials are distinct,
the two lists stay parallel, every processed record's material is present,
and each position holds the sum of the fractions of the records resolving to
its material. -/
def AggInv (f : ℕ → String) (done : List (ℕ × ℚ)) (c : Comp) : Prop :=
  c.mats.Nodup ∧ c.mats.length = c.fracs.length ∧
    (∀ q ∈ done, f q.1 ∈ c.mats) ∧
    (∀ j m, c.mats.get? j = some m →
      c.fracs.get? j =
        some (((done.filter (fun q => f q.1 == m)).map Prod.snd).sum))

/-- The inner scan returns the first matching zone number when one exists;
otherwise it reports no match, except that over an empty registry the stale
flags survive unchanged. -/
theorem scanZones_eq (vals : Comp) (regs : List Comp) :
    ∀ (k : ℕ) (m : Bool) (y : ℕ),
    scanZones vals regs k m y =
      match findMatchIdx vals regs with
      | some j => (true, k + j)
      | none =>
        match regs with
        | [] => (m, y)
        | _ :: _ => (false, y) := by
  induction regs with
  | nil => intro k m y; rfl
  | cons info rest ih =>
    intro k m y
    by_cases h : matchesB vals info
    · simp [scanZones, findMatchIdx, h]
    · simp only [scanZones, findMatchIdx, h, if_false, Bool.false_eq_true,
        ite_false]
      rw [ih (k + 1) false y]
      cases hf : findMatchIdx vals rest with
      | some j =>
        have harith : k + 1 + j = k + (j + 1) := by omega
        simp [hf, harith]
      | none =>
        cases rest with
        | nil => simp [hf]
        | cons a b => simp [hf]

/-- One literal loop iteration acts on the registry and the assignment list
exactly as the flag-free step, and preserves the loop invariant. -/
theorem dedupStep_spec (st : DedupState) (v : ℕ × Comp) (h : DInv st) :
    (dedupStep st v).zones_mats = regUpd st.zones_mats v.2 ∧
    (dedupStep st v).voxel_zone =
      st.voxel_zone ++ [(v.1, zoneFor st.zones_mats v.2)] ∧
    DInv (dedupStep st v) := by
  obtain ⟨zm, z, mt, fi, y, vzn⟩ := st
  obtain ⟨hz, hf, hm⟩ := h
  dsimp only at hz hf hm
  subst hz hf
  cases zm with
  | nil =>
    have hmt : mt = false := hm rfl
    subst hmt
    by_cases hv : isVoidB v.2 <;>
      simp [dedupStep, scanZones, regUpd, zoneFor, findMatchIdx, hv, DInv]
  | cons a as =>
    unfold dedupStep
    rw [scanZones_eq]
    cases hfind : findMatchIdx v.2 (a :: as) with
    | some j =>
      by_cases hv : isVoidB v.2 <;>
        simp [hv, regUpd, zoneFor, hfind, DInv, Nat.add_comm 1 j]
    | none =>
      by_cases hv : isVoidB v.2 <;>
        simp [hv, regUpd, zoneFor, hfind, DInv]

/-- The literal fold and the flag-free fold stay in lock-step from any
invariant-satisfying state. -/
theorem foldl_dedup_clean (voxels : List (ℕ × Comp)) :
    ∀ (st : DedupState), DInv st →
    DInv (voxels.foldl dedupStep st) ∧
    (voxels.foldl dedupStep st).zones_mats =
      (voxels.foldl cleanStep (st.zones_mats, st.voxel_zone)).1 ∧
    (voxels.foldl dedupStep st).voxel_zone =
      (voxels.foldl cleanStep (st.zones_mats, st.voxel_zone)).2 := by
  induction voxels with
  | nil => intro st h; exact ⟨h, rfl, rfl⟩
  | cons v vs ih =>
    intro st h
    obtain ⟨h1, h2, h3⟩ := dedupStep_spec st v h
    simp only [List.foldl_cons]
    have hcs : cleanStep (st.zones_mats, st.voxel_zone) v =
        ((dedupStep st v).zones_mats, (dedupStep st v).voxel_zone) := by
      simp [cleanStep, h1, h2]
    rw [hcs]
    exact ih (dedupStep st v) h3

/-- The function `dedup` computes exactly the registry and assignment list of the
flag-free formulation, and its counter equals the registry size. -/
theorem dedup_eq_clean (voxels : List (ℕ × Comp)) :
    (dedup voxels).zones_mats = (cleanDedup voxels).1 ∧
    (dedup voxels).voxel_zone = (cleanDedup voxels).2 ∧
    (dedup voxels).z = (dedup voxels).zones_mats.length := by
  have hinv : DInv initState := ⟨rfl, rfl, fun _ => rfl⟩
  obtain ⟨h1, h2, h3⟩ := foldl_dedup_clean voxels initState hinv
  exact ⟨h2, h3, h1.1⟩

/-- The registry is only ever appended to. -/
theorem cleanFoldl_reg_ext (l : List (ℕ × Comp)) :
    ∀ s : List Comp × List (ℕ × ℕ), ∃ t, (l.foldl cleanStep s).1 = s.1 ++ t := by
  induction l with
  | nil => intro s; exact ⟨[], by simp⟩
  | cons v vs ih =>
    intro s
    obtain ⟨t, ht⟩ := ih (cleanStep s v)
    have hstep : ∃ u, (cleanStep s v).1 = s.1 ++ u := by
      simp only [cleanStep, regUpd]
      by_cases hv : isVoidB v.2
      · exact ⟨[], by simp [hv]⟩
      · simp only [hv, Bool.false_eq_true, if_false, ite_false]
        cases hf : findMatchIdx v.2 s.1 with
        | some j => exact ⟨[], by simp⟩
        | none => exact ⟨[v.2], rfl⟩
    obtain ⟨u, hu⟩ := hstep
    refine ⟨u ++ t, ?_⟩
    simp only [List.foldl_cons] at *
    rw [ht, hu, List.append_assoc]

/-- The registry part of the fold does not depend on the accumulated
assignments, and the assignments only grow at the tail. -/
theorem cleanFoldl_asg (l : List (ℕ × Comp)) :
    ∀ s : List Comp × List (ℕ × ℕ),
    (l.foldl cleanStep s).1 = (l.foldl cleanStep (s.1, [])).1 ∧
    (l.foldl cleanStep s).2 = s.2 ++ (l.foldl cleanStep (s.1, [])).2 := by
  induction l with
  | nil => intro s; simp
  | cons v vs ih =>
    intro s
    simp only [List.foldl_cons]
    have h1 := ih (cleanStep s v)
    have h2 := ih (cleanStep (s.1, []) v)
    have hstep1 : (cleanStep s v).1 = (cleanStep (s.1, []) v).1 := rfl
    constructor
    · rw [h1.1, h2.1, hstep1]
    · rw [h1.2, h2.2]
      simp only [cleanStep, List.nil_append, List.append_assoc]

/-- Folding over an appended voxel list continues from the intermediate
state. -/
theorem cleanDedup_append (l₁ l₂ : List (ℕ × Comp)) :
    cleanDedup (l₁ ++ l₂) = l₂.foldl cleanStep (cleanDedup l₁) := by
  simp [cleanDedup, List.foldl_append]

/-- Each processed voxel contributes exactly one assignment. -/
theorem cleanFoldl_asg_length (l : List (ℕ × Comp)) :
    ∀ s : List Comp × List (ℕ × ℕ),
    (l.foldl cleanStep s).2.length = s.2.length + l.length := by
  induction l with
  | nil => intro s; simp
  | cons v vs ih =>
    intro s
    simp only [List.foldl_cons, List.length_cons]
    rw [ih (cleanStep s v)]
    simp [cleanStep]
    omega

/-- The assignment list has one entry per voxel. -/
theorem cleanDedup_asg_length (l : List (ℕ × Comp)) :
    (cleanDedup l).2.length = l.length := by
  have := cleanFoldl_asg_length l ([], [])
  simpa [cleanDedup] using this

/-- Assignments carry the voxel indices in input order. -/
theorem cleanFoldl_asg_fst (l : List (ℕ × Comp)) :
    ∀ s : List Comp × List (ℕ × ℕ),
    (l.foldl cleanStep s).2.map Prod.fst = s.2.map Prod.fst ++ l.map Prod.fst := by
  induction l with
  | nil => intro s; simp
  | cons v vs ih =>
    intro s
    simp only [List.foldl_cons, List.map_cons]
    rw [ih (cleanStep s v)]
    simp [cleanStep]

/-- The assignment recorded for the voxel at position `pre.length` is
`zoneFor` of the registry built from the preceding voxels. -/
theorem cleanDedup_asg_at (pre : List (ℕ × Comp)) (v : ℕ × Comp)
    (suf : List (ℕ × Comp)) :
    (cleanDedup (pre ++ v :: suf)).2.get? pre.length =
      some (v.1, zoneFor (cleanDedup pre).1 v.2) := by
  rw [cleanDedup_append]
  simp only [List.foldl_cons]
  rw [(cleanFoldl_asg suf (cleanStep (cleanDedup pre) v)).2]
  have hlen : (cleanDedup pre).2.length = pre.length := cleanDedup_asg_length pre
  simp only [cleanStep]
  rw [List.append_assoc, List.get?_append_right (by omega)]
  simp [hlen]

/-- The registry after processing `pre ++ v :: rest` extends the registry
obtained right after processing `v`. -/
theorem cleanDedup_reg_after (pre : List (ℕ × Comp)) (v : ℕ × Comp)
    (rest : List (ℕ × Comp)) :
    ∃ t, (cleanDedup (pre ++ v :: rest)).1 =
      regUpd (cleanDedup pre).1 v.2 ++ t := by
  rw [cleanDedup_append]
  simp only [List.foldl_cons]
  obtain ⟨t, ht⟩ := cleanFoldl_reg_ext rest (cleanStep (cleanDedup pre) v)
  exact ⟨t, by rw [ht]; rfl⟩

/-- Positional decomposition of a list at a defined index. -/
theorem get?_decomp {α : Type} (l : List α) :
    ∀ (n : ℕ) (a : α), l.get? n = some a →
    ∃ pre suf, l = pre ++ a :: suf ∧ pre.length = n := by
  induction l with
  | nil => intro n a h; simp at h
  | cons x xs ih =>
    intro n a h
    cases n with
    | zero =>
      simp only [List.get?, Option.some.injEq] at h
      exact ⟨[], xs, by simp [h], rfl⟩
    | succ n =>
      obtain ⟨pre, suf, he, hl⟩ := ih n a h
      exact ⟨x :: pre, suf, by simp [he], by simp [hl]⟩

/-- Self-comparison passes `np.allclose`. -/
theorem allcloseB_refl (fr : List ℚ) : allcloseB fr fr = true := by
  simp only [allcloseB, beq_self_eq_true, Bool.true_and, List.all_eq_true]
  intro p hp
  have hdiag : p.1 = p.2 := by
    induction fr with
    | nil => simp at hp
    | cons q qs ih =>
      simp only [List.zip_cons_cons, List.mem_cons] at hp
      rcases hp with h | h
      · rw [h]
      · exact ih h
  rw [hdiag]
  simp only [sub_self, abs_zero, decide_eq_true_eq]
  have : (0 : ℚ) ≤ eps := by norm_num [eps]
  have h2 : (0 : ℚ) ≤ eps * |p.2| := by positivity
  linarith

/-- A composition always matches itself. -/
theorem matchesB_refl (c : Comp) : matchesB c c = true := by
  simp [matchesB, allcloseB_refl]

/-- The first match over an appended registry: a hit in the prefix wins,
otherwise search continues in the suffix with shifted position. -/
theorem findMatchIdx_append (c : Comp) (l₁ l₂ : List Comp) :
    findMatchIdx c (l₁ ++ l₂) =
      match findMatchIdx c l₁ with
      | some j => some j
      | none => (findMatchIdx c l₂).map (· + l₁.length) := by
  induction l₁ with
  | nil => simp [findMatchIdx]
  | cons a l₁ ih =>
    by_cases h : matchesB c a
    · simp [findMatchIdx, h]
    · simp only [List.cons_append, findMatchIdx, h, Bool.false_eq_true,
        ite_false, List.append_eq]
      rw [ih]
      cases hf : findMatchIdx c l₁ with
      | some j => simp [hf]
      | none =>
        simp only [hf]
        cases hg : findMatchIdx c l₂ with
        | none => simp [hg]
        | some j => simp [Nat.add_assoc]

/-- A found match points at a registry entry that matches. -/
theorem findMatchIdx_some (c : Comp) (reg : List Comp) :
    ∀ j, findMatchIdx c reg = some j →
    ∃ w, reg.get? j = some w ∧ matchesB c w = true := by
  induction reg with
  | nil => intro j h; simp [findMatchIdx] at h
  | cons a rest ih =>
    intro j h
    by_cases hm : matchesB c a
    · simp only [findMatchIdx, hm, if_true, ite_true, Option.some_inj] at h
      exact ⟨a, by simp [h.symm], hm⟩
    · simp only [findMatchIdx, hm, Bool.false_eq_true, ite_false] at h
      cases hf : findMatchIdx c rest with
      | none => rw [hf] at h; simp at h
      | some j0 =>
        rw [hf] at h
        simp only [Option.map_some', Option.some_inj] at h
        obtain ⟨w, hw, hmw⟩ := ih j0 hf
        exact ⟨w, by rw [← h, List.get?_cons_succ]; exact hw, hmw⟩

/-- A voxel gets zone 0 exactly when the code's void test fires. -/
theorem zoneFor_eq_zero_iff (reg : List Comp) (c : Comp) :
    zoneFor reg c = 0 ↔ isVoidB c = true := by
  unfold zoneFor
  by_cases hv : isVoidB c
  · simp [hv]
  · simp only [hv, Bool.false_eq_true, ite_false, iff_false]
    cases hf : findMatchIdx c reg <;> simp

/-- The zone a non-void voxel receives points back, inside the updated
registry, at an entry the voxel matches. -/
theorem zoneFor_matches (reg : List Comp) (c : Comp) (hv : isVoidB c = false) :
    ∃ w, (regUpd reg c).get? (zoneFor reg c - 1) = some w ∧
      matchesB c w = true ∧ 0 < zoneFor reg c := by
  cases hf : findMatchIdx c reg with
  | some j =>
    have hz : zoneFor reg c = j + 1 := by simp [zoneFor, hv, hf]
    have hr : regUpd reg c = reg := by simp [regUpd, hv, hf]
    obtain ⟨w, hw, hmw⟩ := findMatchIdx_some c reg j hf
    refine ⟨w, ?_, hmw, by omega⟩
    rw [hz, hr]
    simpa using hw
  | none =>
    have hz : zoneFor reg c = reg.length + 1 := by simp [zoneFor, hv, hf]
    have hr : regUpd reg c = reg ++ [c] := by simp [regUpd, hv, hf]
    refine ⟨c, ?_, matchesB_refl c, by omega⟩
    rw [hz, hr, List.get?_append_right (by omega)]
    have hidx : reg.length + 1 - 1 - reg.length = 0 := by omega
    rw [hidx]
    rfl

/-- After a non-void voxel is processed, its composition keeps finding the
same first match in every later (extended) registry. -/
theorem zone_stable (reg : List Comp) (c : Comp) (hv : isVoidB c = false)
    (ext : List Comp) :
    findMatchIdx c (regUpd reg c ++ ext) = some (zoneFor reg c - 1) := by
  cases hf : findMatchIdx c reg with
  | some j =>
    have hz : zoneFor reg c = j + 1 := by simp [zoneFor, hv, hf]
    have hr : regUpd reg c = reg := by simp [regUpd, hv, hf]
    rw [hz, hr, findMatchIdx_append, hf]
    simp
  | none =>
    have hz : zoneFor reg c = reg.length + 1 := by simp [zoneFor, hv, hf]
    have hr : regUpd reg c = reg ++ [c] := by simp [regUpd, hv, hf]
    rw [hz, hr, List.append_assoc, findMatchIdx_append, hf]
    simp only [List.cons_append, findMatchIdx, matchesB_refl, if_true,
      ite_true, Option.map_some', Option.some.injEq]
    omega

/-- Registry entries are compositions of input voxels. -/
theorem cleanFoldl_reg_entries (l : List (ℕ × Comp)) :
    ∀ s : List Comp × List (ℕ × ℕ), ∀ w ∈ (l.foldl cleanStep s).1,
    w ∈ s.1 ∨ ∃ v ∈ l, v.2 = w := by
  induction l with
  | nil => intro s w hw; exact Or.inl hw
  | cons v vs ih =>
    intro s w hw
    simp only [List.foldl_cons] at hw
    rcases ih (cleanStep s v) w hw with h | h
    · simp only [cleanStep, regUpd] at h
      by_cases hv : isVoidB v.2
      · rw [if_pos hv] at h; exact Or.inl h
      · rw [if_neg (by simp [hv])] at h
        cases hf : findMatchIdx v.2 s.1 with
        | some j => rw [hf] at h; exact Or.inl h
        | none =>
          rw [hf] at h
          rcases List.mem_append.mp h with h2 | h2
          · exact Or.inl h2
          · simp only [List.mem_singleton] at h2
            exact Or.inr ⟨v, by simp, h2.symm⟩
    · obtain ⟨u, hu, hw2⟩ := h
      exact Or.inr ⟨u, by simp [hu], hw2⟩

/-- No void composition is ever registered. -/
theorem cleanFoldl_reg_nonvoid (l : List (ℕ × Comp)) :
    ∀ s : List Comp × List (ℕ × ℕ),
    (∀ w ∈ s.1, isVoidB w = false) →
    ∀ w ∈ (l.foldl cleanStep s).1, isVoidB w = false := by
  induction l with
  | nil => intro s hs w hw; exact hs w hw
  | cons v vs ih =>
    intro s hs w hw
    simp only [List.foldl_cons] at hw
    refine ih (cleanStep s v) ?_ w hw
    intro u hu
    simp only [cleanStep, regUpd] at hu
    by_cases hv : isVoidB v.2
    · rw [if_pos hv] at hu; exact hs u hu
    · rw [if_neg (by simp [hv])] at hu
      cases hf : findMatchIdx v.2 s.1 with
      | some j => rw [hf] at hu; exact hs u hu
      | none =>
        rw [hf] at hu
        rcases List.mem_append.mp hu with h2 | h2
        · exact hs u h2
        · simp only [List.mem_singleton] at h2
          rw [h2]
          simpa using hv

/-- Processing a voxel cannot shrink the registry. -/
theorem reg_le_regUpd (reg : List Comp) (c : Comp) :
    reg.length ≤ (regUpd reg c).length := by
  simp only [regUpd]
  by_cases hv : isVoidB c
  · simp [hv]
  · simp only [hv, Bool.false_eq_true, ite_false]
    cases hf : findMatchIdx c reg <;> simp

/-- The zone number handed out never exceeds the updated registry size. -/
theorem zoneFor_le_regUpd (reg : List Comp) (c : Comp) :
    zoneFor reg c ≤ (regUpd reg c).length := by
  by_cases hv : isVoidB c
  · simp [zoneFor, hv]
  · cases hf : findMatchIdx c reg with
    | some j =>
      have hz : zoneFor reg c = j + 1 := by simp [zoneFor, hv, hf]
      have hr : regUpd reg c = reg := by simp [regUpd, hv, hf]
      obtain ⟨w, hw, _⟩ := findMatchIdx_some c reg j hf
      obtain ⟨hlt, _⟩ := List.get?_eq_some.mp hw
      rw [hz, hr]
      omega
    | none =>
      have hz : zoneFor reg c = reg.length + 1 := by simp [zoneFor, hv, hf]
      have hr : regUpd reg c = reg ++ [c] := by simp [regUpd, hv, hf]
      rw [hz, hr]
      simp

/-- Every assigned zone number is at most the final registry size. -/
theorem cleanFoldl_zone_le (l : List (ℕ × Comp)) :
    ∀ s : List Comp × List (ℕ × ℕ),
    (∀ a ∈ s.2, a.2 ≤ s.1.length) →
    ∀ a ∈ (l.foldl cleanStep s).2, a.2 ≤ (l.foldl cleanStep s).1.length := by
  induction l with
  | nil => intro s hs a ha; exact hs a ha
  | cons v vs ih =>
    intro s hs a ha
    simp only [List.foldl_cons] at ha ⊢
    refine ih (cleanStep s v) ?_ a ha
    intro b hb
    simp only [cleanStep] at hb ⊢
    rcases List.mem_append.mp hb with h2 | h2
    · have h3 := hs b h2
      have h4 := reg_le_regUpd s.1 v.2
      omega
    · simp only [List.mem_singleton] at h2
      rw [h2]
      exact zoneFor_le_regUpd s.1 v.2

/-- Every zone number from 1 up to the registry size is assigned to some
voxel. -/
theorem cleanFoldl_onto (l : List (ℕ × Comp)) :
    ∀ s : List Comp × List (ℕ × ℕ),
    (∀ k, k < s.1.length → ∃ a ∈ s.2, a.2 = k + 1) →
    ∀ k, k < (l.foldl cleanStep s).1.length →
      ∃ a ∈ (l.foldl cleanStep s).2, a.2 = k + 1 := by
  induction l with
  | nil => exact fun s hs => hs
  | cons v vs ih =>
    intro s hs
    simp only [List.foldl_cons]
    refine ih (cleanStep s v) ?_
    intro k hk
    simp only [cleanStep] at hk ⊢
    by_cases hv : isVoidB v.2
    · have hr : regUpd s.1 v.2 = s.1 := by simp [regUpd, hv]
      rw [hr] at hk
      obtain ⟨a, ha, hae⟩ := hs k hk
      exact ⟨a, List.mem_append.mpr (Or.inl ha), hae⟩
    · cases hf : findMatchIdx v.2 s.1 with
      | some j =>
        have hr : regUpd s.1 v.2 = s.1 := by simp [regUpd, hv, hf]
        rw [hr] at hk
        obtain ⟨a, ha, hae⟩ := hs k hk
        exact ⟨a, List.mem_append.mpr (Or.inl ha), hae⟩
      | none =>
        have hr : regUpd s.1 v.2 = s.1 ++ [v.2] := by simp [regUpd, hv, hf]
        rw [hr] at hk
        simp only [List.length_append, List.length_singleton] at hk
        by_cases hk2 : k < s.1.length
        · obtain ⟨a, ha, hae⟩ := hs k hk2
          exact ⟨a, List.mem_append.mpr (Or.inl ha), hae⟩
        · have hkeq : k = s.1.length := by omega
          refine ⟨(v.1, zoneFor s.1 v.2), List.mem_append.mpr (Or.inr ?_), ?_⟩
          · simp
          · simp [zoneFor, hv, hf, hkeq]

/-- Positionally indexed elements of zipped lists are members of the zip. -/
theorem zip_get?_mem :
    ∀ (a b : List ℚ) (j : ℕ) (x y : ℚ),
    a.get? j = some x → b.get? j = some y → (x, y) ∈ a.zip b := by
  intro a
  induction a with
  | nil => intro b j x y ha; simp at ha
  | cons q qs ih =>
    intro b j x y ha hb
    cases b with
    | nil => simp at hb
    | cons r rs =>
      cases j with
      | zero =>
        simp only [List.get?, Option.some.injEq] at ha hb
        simp [List.zip_cons_cons, ha, hb]
      | succ j =>
        rw [List.get?_cons_succ] at ha hb
        simp only [List.zip_cons_cons, List.mem_cons]
        exact Or.inr (ih rs j x y ha hb)

/-- Positional extraction of the `np.allclose` bound. -/
theorem allcloseB_point (a b : List ℚ) (j : ℕ) (x y : ℚ)
    (h : allcloseB a b = true) (ha : a.get? j = some x)
    (hb : b.get? j = some y) :
    |x - y| ≤ eps + eps * |y| := by
  simp only [allcloseB, Bool.and_eq_true, List.all_eq_true] at h
  have hmem := zip_get?_mem a b j x y ha hb
  have := h.2 (x, y) hmem
  simpa using this

/-- Matching requires equal fraction-list lengths. -/
theorem allcloseB_length (a b : List ℚ) (h : allcloseB a b = true) :
    a.length = b.length := by
  simp only [allcloseB, Bool.and_eq_true] at h
  exact beq_iff_eq.mp h.1

/-- A voxel that received a nonzero zone number matches the registered
composition stored under that number in the final registry. -/
theorem cleanDedup_assigned_matches (l : List (ℕ × Comp)) (p i n : ℕ)
    (c : Comp) (hl : l.get? p = some (i, c))
    (ha : (cleanDedup l).2.get? p = some (i, n)) (hn : 0 < n) :
    ∃ w, (cleanDedup l).1.get? (n - 1) = some w ∧ matchesB c w = true := by
  obtain ⟨pre, suf, he, hlen⟩ := get?_decomp l p (i, c) hl
  subst he
  have hasg := cleanDedup_asg_at pre (i, c) suf
  rw [hlen] at hasg
  rw [hasg] at ha
  simp only [Option.some.injEq, Prod.mk.injEq] at ha
  have hneq : n = zoneFor (cleanDedup pre).1 c := ha.2.symm
  by_cases hv : isVoidB c
  · exfalso
    have : zoneFor (cleanDedup pre).1 c = 0 :=
      (zoneFor_eq_zero_iff (cleanDedup pre).1 c).mpr hv
    omega
  · have hv2 : isVoidB c = false := by simpa using hv
    obtain ⟨w, hw, hmw, hpos⟩ := zoneFor_matches (cleanDedup pre).1 c hv2
    obtain ⟨t, ht⟩ := cleanDedup_reg_after pre (i, c) suf
    refine ⟨w, ?_, hmw⟩
    rw [ht, hneq]
    obtain ⟨hlt, _⟩ := List.get?_eq_some.mp hw
    rw [List.get?_append hlt]
    exact hw

/-- Two occurrences of the same non-void composition receive the same zone
number (the later one re-finds the first match of the earlier one). -/
theorem cleanDedup_same_comp (pre mid suf : List (ℕ × Comp)) (i₁ i₂ : ℕ)
    (c : Comp) (hv : isVoidB c = false) :
    ∃ n,
      (cleanDedup (pre ++ (i₁, c) :: (mid ++ (i₂, c) :: suf))).2.get?
        pre.length = some (i₁, n) ∧
      (cleanDedup (pre ++ (i₁, c) :: (mid ++ (i₂, c) :: suf))).2.get?
        (pre ++ (i₁, c) :: mid).length = some (i₂, n) := by
  set l := pre ++ (i₁, c) :: (mid ++ (i₂, c) :: suf) with hldef
  have h1 := cleanDedup_asg_at pre (i₁, c) (mid ++ (i₂, c) :: suf)
  have hassoc : l = (pre ++ (i₁, c) :: mid) ++ (i₂, c) :: suf := by
    simp [hldef]
  have h2 := cleanDedup_asg_at (pre ++ (i₁, c) :: mid) (i₂, c) suf
  rw [← hassoc] at h2
  set R₁ := (cleanDedup pre).1 with hR₁
  obtain ⟨t, ht⟩ := cleanDedup_reg_after pre (i₁, c) mid
  have hfind := zone_stable R₁ c hv t
  have hpos : 0 < zoneFor R₁ c := by
    rcases Nat.eq_zero_or_pos (zoneFor R₁ c) with h0 | h0
    · exfalso
      have := (zoneFor_eq_zero_iff R₁ c).mp h0
      rw [hv] at this
      exact Bool.false_ne_true this
    · exact h0
  have hz2 : zoneFor (cleanDedup (pre ++ (i₁, c) :: mid)).1 c =
      zoneFor R₁ c := by
    rw [zoneFor]
    simp only [hv, Bool.false_eq_true, ite_false]
    rw [ht, hfind]
    show zoneFor R₁ c - 1 + 1 = zoneFor R₁ c
    omega
  exact ⟨zoneFor R₁ c, h1, by rw [h2, hz2]⟩

/-- A successfully collected row has exactly the requested width. -/
theorem collectRow_length (vz : List (ℕ × ℕ)) :
    ∀ (k n : ℕ) (row : List ℕ), collectRow vz n k = some row →
    row.length = k := by
  intro k
  induction k with
  | zero =>
    intro n row h
    simp only [collectRow, Option.some.injEq] at h
    simp [← h]
  | succ k ih =>
    intro n row h
    simp only [collectRow] at h
    cases h1 : vz.lookup n with
    | none => rw [h1] at h; simp at h
    | some zval =>
      rw [h1] at h
      cases h2 : collectRow vz (n + 1) k with
      | none => rw [h2] at h; simp at h
      | some rest =>
        rw [h2] at h
        simp only [Option.some.injEq] at h
        rw [← h]
        simp [ih (n + 1) rest h2]

/-- A successfully collected block has the requested number of rows, each of
the requested width. -/
theorem collectRows_shape (vz : List (ℕ × ℕ)) (cols : ℕ) :
    ∀ (r n : ℕ) (M : List (List ℕ)), collectRows vz cols n r = some M →
    M.length = r ∧ ∀ row ∈ M, row.length = cols := by
  intro r
  induction r with
  | zero =>
    intro n M h
    simp only [collectRows, Option.some.injEq] at h
    simp [← h]
  | succ r ih =>
    intro n M h
    simp only [collectRows] at h
    cases h1 : collectRow vz n cols with
    | none => rw [h1] at h; simp at h
    | some row =>
      rw [h1] at h
      cases h2 : collectRows vz cols (n + cols) r with
      | none => rw [h2] at h; simp at h
      | some rest =>
        rw [h2] at h
        simp only [Option.some.injEq] at h
        obtain ⟨hlen, hrows⟩ := ih (n + cols) rest h2
        constructor
        · rw [← h]; simp [hlen]
        · intro rw2 hrw
          rw [← h] at hrw
          rcases List.mem_cons.mp hrw with h3 | h3
          · rw [h3]; exact collectRow_length vz cols n row h1
          · exact hrows rw2 h3

/-- A row collection fails exactly when some voxel index in its range is
missing from the assignment map. -/
theorem collectRow_none_iff (vz : List (ℕ × ℕ)) :
    ∀ (k n : ℕ), collectRow vz n k = none ↔
      ∃ j, j < k ∧ vz.lookup (n + j) = none := by
  intro k
  induction k with
  | zero => intro n; simp [collectRow]
  | succ k ih =>
    intro n
    constructor
    · intro h
      simp only [collectRow] at h
      cases h1 : vz.lookup n with
      | none => exact ⟨0, by omega, by simpa using h1⟩
      | some zval =>
        rw [h1] at h
        cases h2 : collectRow vz (n + 1) k with
        | some rest => rw [h2] at h; simp at h
        | none =>
          obtain ⟨j, hj, hl⟩ := (ih (n + 1)).mp h2
          refine ⟨j + 1, by omega, ?_⟩
          rw [show n + (j + 1) = n + 1 + j by omega]
          exact hl
    · rintro ⟨j, hj, hl⟩
      simp only [collectRow]
      cases j with
      | zero =>
        rw [Nat.add_zero] at hl
        rw [hl]
      | succ j =>
        have h2 : collectRow vz (n + 1) k = none := by
          refine (ih (n + 1)).mpr ⟨j, by omega, ?_⟩
          rw [show n + 1 + j = n + (j + 1) by omega]
          exact hl
        rw [h2]
        cases h1 : vz.lookup n <;> rfl

/-- The whole collection fails exactly when some voxel index below
`rows*cols` is missing from the assignment map. -/
theorem collectRows_none_iff (vz : List (ℕ × ℕ)) (cols : ℕ) :
    ∀ (r n : ℕ), collectRows vz cols n r = none ↔
      ∃ j, j < r * cols ∧ vz.lookup (n + j) = none := by
  intro r
  induction r with
  | zero => intro n; simp [collectRows]
  | succ r ih =>
    intro n
    have hmul : (r + 1) * cols = r * cols + cols := Nat.succ_mul r cols
    constructor
    · intro h
      simp only [collectRows] at h
      cases h1 : collectRow vz n cols with
      | none =>
        obtain ⟨j, hj, hl⟩ := (collectRow_none_iff vz cols n).mp h1
        exact ⟨j, by omega, hl⟩
      | some row =>
        rw [h1] at h
        cases h2 : collectRows vz cols (n + cols) r with
        | some rest => rw [h2] at h; simp at h
        | none =>
          obtain ⟨j, hj, hl⟩ := (ih (n + cols)).mp h2
          refine ⟨cols + j, by omega, ?_⟩
          rw [show n + (cols + j) = n + cols + j by omega]
          exact hl
    · rintro ⟨j, hj, hl⟩
      simp only [collectRows]
      by_cases hjc : j < cols
      · have h1 : collectRow vz n cols = none :=
          (collectRow_none_iff vz cols n).mpr ⟨j, hjc, hl⟩
        rw [h1]
      · have h2 : collectRows vz cols (n + cols) r = none := by
          refine (ih (n + cols)).mpr ⟨j - cols, by omega, ?_⟩
          rw [show n + cols + (j - cols) = n + j by omega]
          exact hl
        rw [h2]
        cases h1 : collectRow vz n cols <;> rfl

/-- Positional indexing through `zip`. -/
theorem zip_get?_eq {α β : Type} :
    ∀ (a : List α) (b : List β) (j : ℕ) (x : α) (y : β),
    a.get? j = some x → b.get? j = some y → (a.zip b).get? j = some (x, y) := by
  intro a
  induction a with
  | nil => intro b j x y ha; simp at ha
  | cons q qs ih =>
    intro b j x y ha hb
    cases b with
    | nil => simp at hb
    | cons r rs =>
      cases j with
      | zero =>
        simp only [List.get?, Option.some.injEq] at ha hb
        simp [List.zip_cons_cons, ha, hb]
      | succ j =>
        rw [List.get?_cons_succ] at ha hb
        simp only [List.zip_cons_cons, List.get?_cons_succ]
        exact ih rs j x y ha hb

/-- One aggregation step preserves the aggregation invariant. -/
theorem addCell_inv (f : ℕ → String) (done : List (ℕ × ℚ)) (c : Comp)
    (r : ℕ × ℚ) (h : AggInv f done c) :
    AggInv f (done ++ [r]) (addCell f c r) := by
  obtain ⟨h1, h2, h3, h4⟩ := h
  by_cases hmem : f r.1 ∈ c.mats
  · refine ⟨?_, ?_, ?_, ?_⟩
    · simpa [addCell, hmem] using h1
    · simp [addCell, hmem, List.length_map, List.length_zip, h2]
    · intro q hq
      rcases List.mem_append.mp hq with hq2 | hq2
      · simpa [addCell, hmem] using h3 q hq2
      · simp only [List.mem_singleton] at hq2
        rw [hq2]
        simp [addCell, hmem]
    · intro j m hjm
      simp only [addCell, hmem, if_true, ite_true] at hjm ⊢
      have hjlt : j < c.mats.length := (List.get?_eq_some.mp hjm).1
      have hfr : ∃ old, c.fracs.get? j = some old := by
        cases ho : c.fracs.get? j with
        | none =>
          exfalso
          have := List.get?_eq_none.mp ho
          omega
        | some old => exact ⟨old, rfl⟩
      obtain ⟨old, hold⟩ := hfr
      have hzip := zip_get?_eq c.mats c.fracs j m old hjm hold
      rw [List.get?_map, hzip]
      have hsum := h4 j m hjm
      rw [hold] at hsum
      simp only [Option.some.injEq] at hsum
      simp only [Option.map_some', Option.some.injEq]
      rw [List.filter_append, List.map_append, List.sum_append]
      by_cases hm0 : m = f r.1
      · have hbeq : (f r.1 == m) = true := by simp [hm0]
        simp only [List.filter_singleton, hbeq]
        rw [if_pos hm0, hsum]
        simp
      · have hbeq : (f r.1 == m) = false := by
          simp only [beq_eq_false_iff_ne, ne_eq]
          exact fun hEq => hm0 hEq.symm
        simp only [List.filter_singleton, hbeq]
        rw [if_neg hm0, hsum]
        simp
  · refine ⟨?_, ?_, ?_, ?_⟩
    · simp only [addCell, hmem, Bool.false_eq_true, if_false, ite_false]
      rw [List.nodup_append]
      refine ⟨h1, List.nodup_singleton _, ?_⟩
      intro a ha hb
      simp only [List.mem_singleton] at hb
      rw [hb] at ha
      exact hmem ha
    · simp [addCell, hmem, h2]
    · intro q hq
      rcases List.mem_append.mp hq with hq2 | hq2
      · have := h3 q hq2
        simp only [addCell, hmem, Bool.false_eq_true, if_false, ite_false]
        exact List.mem_append.mpr (Or.inl this)
      · simp only [List.mem_singleton] at hq2
        rw [hq2]
        simp [addCell, hmem]
    · intro j m hjm
      simp only [addCell, hmem, Bool.false_eq_true, if_false, ite_false]
        at hjm ⊢
      by_cases hj : j < c.mats.length
      · rw [List.get?_append hj] at hjm
        rw [List.get?_append (by omega)]
        have hmmem : m ∈ c.mats := List.get?_mem hjm
        have hne : (f r.1 == m) = false := by
          simp only [beq_eq_false_iff_ne, ne_eq]
          intro hEq
          rw [hEq] at hmem
          exact hmem hmmem
        rw [List.filter_append]
        simp only [List.filter_singleton, hne, cond_false, List.append_nil]
        exact h4 j m hjm
      · rw [List.get?_append_right (by omega)] at hjm
        have hj0 : j - c.mats.length = 0 := by
          by_contra hne0
          have hge : (1 : ℕ) ≤ j - c.mats.length := by omega
          rw [List.get?_eq_none.mpr (by simpa using hge)] at hjm
          exact absurd hjm (by simp)
        rw [hj0] at hjm
        simp only [List.get?, Option.some.injEq] at hjm
        have hjeq : j = c.mats.length := by omega
        rw [List.get?_append_right (by omega),
          show j - c.fracs.length = 0 by omega]
        have hdone : done.filter (fun q => f q.1 == m) = [] := by
          rw [List.filter_eq_nil]
          intro q hq hbeq
          have hqm := h3 q hq
          rw [beq_iff_eq] at hbeq
          rw [hbeq, ← hjm] at hqm
          exact hmem hqm
        rw [List.filter_append, hdone]
        have hself : (f r.1 == m) = true := by simp [hjm]
        simp [List.filter_singleton, hself]

/-- The aggregation invariant holds after folding any record list. -/
theorem mergeFold_inv (f : ℕ → String) (recs : List (ℕ × ℚ)) :
    ∀ (done : List (ℕ × ℚ)) (c : Comp), AggInv f done c →
    AggInv f (done ++ recs) (recs.foldl (addCell f) c) := by
  induction recs with
  | nil => intro done c h; simpa using h
  | cons r rs ih =>
    intro done c h
    have hstep := addCell_inv f done c r h
    have hrec := ih (done ++ [r]) (addCell f c r) hstep
    simpa using hrec

/-- The aggregation invariant for the merged composition of a voxel. -/
theorem mergeVoxelComp_inv (f : ℕ → String) (recs : List (ℕ × ℚ)) :
    AggInv f recs (mergeVoxelComp f recs) := by
  have h0 : AggInv f [] ⟨[], []⟩ := by
    refine ⟨List.nodup_nil, rfl, by simp, ?_⟩
    intro j m h
    simp at h
  simpa using mergeFold_inv f recs [] ⟨[], []⟩ h0

/-- The merged material list is the record materials in first-seen order. -/
theorem mergeVoxelComp_mats (f : ℕ → String) (recs : List (ℕ × ℚ)) :
    (mergeVoxelComp f recs).mats = firstSeen (recs.map (fun r => f r.1)) := by
  unfold mergeVoxelComp firstSeen
  rw [List.foldl_map]
  suffices h : ∀ (rs : List (ℕ × ℚ)) (c : Comp),
      (rs.foldl (addCell f) c).mats =
        rs.foldl (fun acc r => if f r.1 ∈ acc then acc else acc ++ [f r.1])
          c.mats by
    exact h recs ⟨[], []⟩
  intro rs
  induction rs with
  | nil => intro c; rfl
  | cons r rs ih =>
    intro c
    simp only [List.foldl_cons]
    rw [ih (addCell f c r)]
    congr 1
    by_cases hm : f r.1 ∈ c.mats <;> simp [addCell, hm]

/-- A key is found by `lookup` exactly when it occurs among the keys. -/
theorem lookup_isSome_iff (k : ℕ) :
    ∀ d : List (ℕ × ℚ), (d.lookup k).isSome ↔ k ∈ d.map Prod.fst := by
  intro d
  induction d with
  | nil => simp
  | cons p rest ih =>
    obtain ⟨k2, v2⟩ := p
    by_cases h : k = k2
    · simp [List.lookup, h]
    · have hbeq : (k == k2) = false := by
        simp only [beq_eq_false_iff_ne, ne_eq]
        exact h
      simp only [List.lookup, hbeq, List.map_cons, List.mem_cons]
      rw [ih]
      constructor
      · exact Or.inr
      · rintro (h2 | h2)
        · exact absurd h2 h
        · exact h2

/-- Key membership after a Python-style dict assignment. -/
theorem mem_keys_dictInsert (d : List (ℕ × ℚ)) (k : ℕ) (v : ℚ) (k' : ℕ) :
    k' ∈ (dictInsert d k v).map Prod.fst ↔
      k' = k ∨ k' ∈ d.map Prod.fst := by
  unfold dictInsert
  by_cases h : (d.lookup k).isSome
  · simp only [h, if_true, ite_true]
    have hkeys : (d.map (fun p => if p.1 = k then (p.1, v) else p)).map
        Prod.fst = d.map Prod.fst := by
      rw [List.map_map]
      apply List.map_congr_left
      intro p hp
      by_cases hpk : p.1 = k <;> simp [hpk]
    rw [hkeys]
    constructor
    · exact Or.inr
    · rintro (h1 | h1)
      · rw [h1]
        exact (lookup_isSome_iff k d).mp h
      · exact h1
  · simp only [h, Bool.false_eq_true, if_false, ite_false, List.map_append,
      List.mem_append, List.map_cons, List.map_nil, List.mem_singleton]
    constructor
    · rintro (h1 | h1)
      · exact Or.inr h1
      · exact Or.inl h1
    · rintro (h1 | h1)
      · exact Or.inr h1
      · exact Or.inl h1

/-- Keys accumulated by the inner per-material insertion fold. -/
theorem innerFold_keys (comp : List (ℕ × ℚ)) :
    ∀ (acc : List (ℕ × ℚ)) (k' : ℕ),
    k' ∈ ((comp.foldl (fun a q => dictInsert a q.1 (q.2 * atomConv))
        acc).map Prod.fst) ↔
      k' ∈ acc.map Prod.fst ∨ ∃ q ∈ comp, q.1 = k' := by
  induction comp with
  | nil => intro acc k'; simp
  | cons q qs ih =>
    intro acc k'
    simp only [List.foldl_cons]
    rw [ih (dictInsert acc q.1 (q.2 * atomConv)) k',
      mem_keys_dictInsert acc q.1 (q.2 * atomConv) k']
    constructor
    · rintro ((h1 | h1) | h1)
      · exact Or.inr ⟨q, by simp, h1.symm⟩
      · exact Or.inl h1
      · obtain ⟨q2, hq2, he⟩ := h1
        exact Or.inr ⟨q2, by simp [hq2], he⟩
    · rintro (h1 | h1)
      · exact Or.inl (Or.inr h1)
      · obtain ⟨q2, hq2, he⟩ := h1
        rcases List.mem_cons.mp hq2 with h2 | h2
        · rw [h2] at he
          exact Or.inl (Or.inl he.symm)
        · exact Or.inr ⟨q2, h2, he⟩

/-- Keys of the shared `comp_list` dict after the whole material loop. -/
theorem finalCompList_keys (mats : List (String × List (ℕ × ℚ))) (k' : ℕ) :
    k' ∈ (finalCompList mats).map Prod.fst ↔
      ∃ me ∈ mats, ∃ q ∈ me.2, q.1 = k' := by
  unfold finalCompList
  suffices h : ∀ (ms : List (String × List (ℕ × ℚ))) (acc : List (ℕ × ℚ)),
      k' ∈ ((ms.foldl (fun acc p => p.2.foldl
          (fun a q => dictInsert a q.1 (q.2 * atomConv)) acc) acc).map
        Prod.fst) ↔
      k' ∈ acc.map Prod.fst ∨ ∃ me ∈ ms, ∃ q ∈ me.2, q.1 = k' by
    rw [h mats []]
    simp
  intro ms
  induction ms with
  | nil => intro acc; simp
  | cons me ms2 ih =>
    intro acc
    simp only [List.foldl_cons]
    rw [ih, innerFold_keys]
    constructor
    · rintro ((h1 | h1) | h1)
      · exact Or.inl h1
      · obtain ⟨q, hq, he⟩ := h1
        exact Or.inr ⟨me, by simp, q, hq, he⟩
      · obtain ⟨me2, hme2, hq⟩ := h1
        exact Or.inr ⟨me2, by simp [hme2], hq⟩
    · rintro (h1 | h1)
      · exact Or.inl (Or.inl h1)
      · obtain ⟨me2, hme2, q, hq, he⟩ := h1
        rcases List.mem_cons.mp hme2 with h2 | h2
        · rw [h2] at hq
          exact Or.inl (Or.inr ⟨q, hq, he⟩)
        · exact Or.inr ⟨me2, h2, q, hq, he⟩

/-- Every voxel gets exactly one zone number, which is 0 exactly when the
code's four-spelling void test fires on its composition. -/
theorem asg_zero_iff (l : List (ℕ × Comp)) (p i : ℕ) (c : Comp)
    (hp : l.get? p = some (i, c)) :
    ∃ n, (cleanDedup l).2.get? p = some (i, n) ∧ (n = 0 ↔ isVoidB c = true) := by
  obtain ⟨pre, suf, he, hlen⟩ := get?_decomp l p (i, c) hp
  subst he
  rw [← hlen]
  exact ⟨_, cleanDedup_asg_at pre (i, c) suf, zoneFor_eq_zero_iff _ c⟩

/-- Two voxels carrying the same non-void composition, the first strictly
before the second, are assigned the same zone number. -/
theorem same_comp_same_zone_ordered (voxels : List (ℕ × Comp))
    (p₁ p₂ i₁ i₂ : ℕ) (c : Comp) (hlt : p₁ < p₂)
    (h₁ : voxels.get? p₁ = some (i₁, c)) (h₂ : voxels.get? p₂ = some (i₂, c))
    (hv : isVoidB c = false) (n₁ n₂ : ℕ)
    (ha₁ : (cleanDedup voxels).2.get? p₁ = some (i₁, n₁))
    (ha₂ : (cleanDedup voxels).2.get? p₂ = some (i₂, n₂)) : n₁ = n₂ := by
  obtain ⟨pre, suf, he, hlen⟩ := get?_decomp voxels p₁ (i₁, c) h₁
  subst he
  rw [List.get?_append_right (by omega)] at h₂
  have hidx : p₂ - pre.length = (p₂ - pre.length - 1) + 1 := by omega
  rw [hidx, List.get?_cons_succ] at h₂
  obtain ⟨mid, suf₂, he₂, hlen₂⟩ := get?_decomp suf (p₂ - pre.length - 1)
    (i₂, c) h₂
  subst he₂
  obtain ⟨n, hn₁, hn₂⟩ := cleanDedup_same_comp pre mid suf₂ i₁ i₂ c hv
  rw [hlen] at hn₁
  have hplen : (pre ++ (i₁, c) :: mid).length = p₂ := by
    simp only [List.length_append, List.length_cons]
    omega
  rw [hplen] at hn₂
  rw [hn₁] at ha₁
  rw [hn₂] at ha₂
  simp only [Option.some.injEq, Prod.mk.injEq] at ha₁ ha₂
  omega

/-- C1 counterexample: the single-material composition `mat:VACUUM` matches
the void/graveyard sentinels case-insensitively, yet the code registers it
and assigns zone 1, because the source tests membership in a list of four
exact spellings only. -/
theorem claim1_counterexample :
    isVoidCI ⟨["mat:VACUUM"], [1]⟩ = true ∧
    isVoidB ⟨["mat:VACUUM"], [1]⟩ = false ∧
    (dedup [(0, ⟨["mat:VACUUM"], [1]⟩)]).voxel_zone = [(0, 1)] := by decide

/-- C1 (amended): a voxel's final zone number is 0 iff its material list is
exactly one of the four spellings `mat:Vacuum`, `mat:vacuum`,
`mat:graveyard`, `mat:Graveyard` (the volume fractions are ignored and any
registry match is overridden); such compositions are never registered; and
the mapping is total: one assignment per voxel, in voxel order. -/
theorem claim1_zone_zero_iff (voxels : List (ℕ × Comp))
    (_wf : ∀ v ∈ voxels, v.2.mats.length = v.2.fracs.length)
    (p i : ℕ) (c : Comp) (hp : voxels.get? p = some (i, c)) :
    (∃ n, (dedup voxels).voxel_zone.get? p = some (i, n) ∧
      (n = 0 ↔ isVoidB c = true)) ∧
    (∀ w ∈ (dedup voxels).zones_mats, isVoidB w = false) ∧
    (dedup voxels).voxel_zone.length = voxels.length ∧
    (dedup voxels).voxel_zone.map Prod.fst = voxels.map Prod.fst := by
  obtain ⟨hreg, hasg, hz⟩ := dedup_eq_clean voxels
  refine ⟨?_, ?_, ?_, ?_⟩
  · rw [hasg]
    exact asg_zero_iff voxels p i c hp
  · intro w hw
    rw [hreg] at hw
    exact cleanFoldl_reg_nonvoid voxels ([], []) (by intro u hu; simp at hu)
      w hw
  · rw [hasg]
    exact cleanDedup_asg_length voxels
  · rw [hasg]
    have := cleanFoldl_asg_fst voxels ([], [])
    simpa [cleanDedup] using this

/-- C1 witness: a voxel with the registered spelling `mat:Vacuum` and a
normal voxel, checked through the amended theorem. -/
theorem claim1_witness :
    (∃ n, (dedup [(0, ⟨["mat:Vacuum"], [1]⟩),
        (1, ⟨["A"], [1]⟩)]).voxel_zone.get? 0 = some (0, n) ∧
      (n = 0 ↔ isVoidB ⟨["mat:Vacuum"], [1]⟩ = true)) ∧
    (∀ w ∈ (dedup [(0, ⟨["mat:Vacuum"], [1]⟩),
        (1, ⟨["A"], [1]⟩)]).zones_mats, isVoidB w = false) ∧
    (dedup [(0, ⟨["mat:Vacuum"], [1]⟩),
      (1, ⟨["A"], [1]⟩)]).voxel_zone.length =
      [((0 : ℕ), (⟨["mat:Vacuum"], [1]⟩ : Comp)),
        (1, ⟨["A"], [1]⟩)].length ∧
    (dedup [(0, ⟨["mat:Vacuum"], [1]⟩),
      (1, ⟨["A"], [1]⟩)]).voxel_zone.map Prod.fst =
      [((0 : ℕ), (⟨["mat:Vacuum"], [1]⟩ : Comp)),
        (1, ⟨["A"], [1]⟩)].map Prod.fst :=
  claim1_zone_zero_iff
    [(0, ⟨["mat:Vacuum"], [1]⟩), (1, ⟨["A"], [1]⟩)] (by decide)
    0 0 ⟨["mat:Vacuum"], [1]⟩ (by decide)

/-- C6 counterexample: a voxel with an empty composition is assigned zone 1,
not zone 0: the empty material list is not among the four void spellings, so
the voxel is registered as a fresh zone. -/
theorem claim6_counterexample :
    (dedup [(0, ⟨[], []⟩)]).voxel_zone = [(0, 1)] ∧ (1 : ℕ) ≠ 0 := by decide

/-- C6 (amended): a voxel with an empty Composition is not assigned zone 0;
it is handled as an ordinary non-void composition and receives a positive
zone number. -/
theorem claim6_empty_comp (voxels : List (ℕ × Comp))
    (_wf : ∀ v ∈ voxels, v.2.mats.length = v.2.fracs.length)
    (p i : ℕ) (hp : voxels.get? p = some (i, ⟨[], []⟩)) :
    ∃ n, (dedup voxels).voxel_zone.get? p = some (i, n) ∧ 0 < n := by
  obtain ⟨hreg, hasg, hz⟩ := dedup_eq_clean voxels
  rw [hasg]
  obtain ⟨n, hn, hiff⟩ := asg_zero_iff voxels p i ⟨[], []⟩ hp
  refine ⟨n, hn, ?_⟩
  rcases Nat.eq_zero_or_pos n with h0 | h0
  · exfalso
    have := hiff.mp h0
    exact absurd this (by decide)
  · exact h0

/-- C6 witness: the empty-composition voxel from the counterexample input,
checked through the amended theorem. -/
theorem claim6_witness :
    ∃ n, (dedup [(0, (⟨[], []⟩ : Comp))]).voxel_zone.get? 0 = some (0, n) ∧
      0 < n :=
  claim6_empty_comp [(0, ⟨[], []⟩)] (by decide) 0 0 (by decide)

/-- C3 counterexample: three voxels with the same material and fractions
0, 2e-8, 1e-8.  The second and third differ by exactly 1e-8 (within the
claimed tolerance), yet they get zones 2 and 1: the second misses zone 1
(gap 2e-8 > 1e-8 from the registered 0) and registers zone 2, while the
third matches zone 1 first (gap 1e-8).  Tolerance matching is not
transitive, so closeness of a pair does not imply equal zones. -/
theorem claim3_counterexample :
    isVoidB ⟨["m"], [2 / 100000000]⟩ = false ∧
    isVoidB ⟨["m"], [2 / 200000000]⟩ = false ∧
    isVoidCI ⟨["m"], [2 / 100000000]⟩ = false ∧
    isVoidCI ⟨["m"], [2 / 200000000]⟩ = false ∧
    |(2 / 100000000 : ℚ) - 2 / 200000000| ≤ eps ∧
    (dedup [(0, ⟨["m"], [0]⟩), (1, ⟨["m"], [2 / 100000000]⟩),
      (2, ⟨["m"], [2 / 200000000]⟩)]).voxel_zone =
      [(0, 1), (1, 2), (2, 1)] := by
  have hm10 : matchesB ⟨["m"], [2 / 100000000]⟩ ⟨["m"], [0]⟩ = false := by
    have hq : (decide (|(2 / 100000000 : ℚ) - 0| ≤
        eps + eps * |(0 : ℚ)|)) = false := by
      rw [decide_eq_false_iff_not, sub_zero, abs_zero, mul_zero, add_zero,
        abs_of_nonneg (by norm_num), eps]
      norm_num
    simp only [matchesB, allcloseB, List.length_cons, List.length_nil,
      List.zip_cons_cons, List.zip_nil_right, List.all_cons, List.all_nil,
      hq]
    simp
  have hm20 : matchesB ⟨["m"], [2 / 200000000]⟩ ⟨["m"], [0]⟩ = true := by
    have hq : (decide (|(2 / 200000000 : ℚ) - 0| ≤
        eps + eps * |(0 : ℚ)|)) = true := by
      rw [decide_eq_true_eq, sub_zero, abs_zero, mul_zero, add_zero,
        abs_of_nonneg (by norm_num), eps]
      norm_num
    simp only [matchesB, allcloseB, List.length_cons, List.length_nil,
      List.zip_cons_cons, List.zip_nil_right, List.all_cons, List.all_nil,
      hq]
    simp
  refine ⟨by decide, by decide, by decide, by decide, ?_, ?_⟩
  · rw [show (2 / 100000000 : ℚ) - 2 / 200000000 = 2 / 200000000 by
      norm_num, abs_of_nonneg (by norm_num), eps]
    norm_num
  · rw [(dedup_eq_clean _).2.1]
    simp [cleanDedup, cleanStep, regUpd, zoneFor, findMatchIdx, isVoidB,
      hm10, hm20]

/-- C3 (amended): two non-void voxels whose compositions are identical
(same material list and identical fraction lists) are assigned the same
zone number.  The original claim's hypothesis (fractions merely within
1e-8) is refuted by the counterexample, because the code's tolerance
matching picks the first registered match and is not transitive. -/
theorem claim3_identical_same_zone (voxels : List (ℕ × Comp))
    (_wf : ∀ v ∈ voxels, v.2.mats.length = v.2.fracs.length)
    (p₁ p₂ i₁ i₂ : ℕ) (c : Comp)
    (h₁ : voxels.get? p₁ = some (i₁, c)) (h₂ : voxels.get? p₂ = some (i₂, c))
    (hv : isVoidB c = false) (n₁ n₂ : ℕ)
    (ha₁ : (dedup voxels).voxel_zone.get? p₁ = some (i₁, n₁))
    (ha₂ : (dedup voxels).voxel_zone.get? p₂ = some (i₂, n₂)) : n₁ = n₂ := by
  obtain ⟨hreg, hasg, hz⟩ := dedup_eq_clean voxels
  rw [hasg] at ha₁ ha₂
  rcases Nat.lt_trichotomy p₁ p₂ with hlt | heq | hgt
  · exact same_comp_same_zone_ordered voxels p₁ p₂ i₁ i₂ c hlt h₁ h₂ hv
      n₁ n₂ ha₁ ha₂
  · rw [heq] at ha₁
    rw [ha₂] at ha₁
    simp only [Option.some.injEq, Prod.mk.injEq] at ha₁
    exact ha₁.2.symm
  · exact (same_comp_same_zone_ordered voxels p₂ p₁ i₂ i₁ c hgt h₂ h₁ hv
      n₂ n₁ ha₂ ha₁).symm

/-- C3 witness: two identical voxels sharing zone 1, checked through the
amended theorem. -/
theorem claim3_witness :
    (dedup [(0, (⟨["A"], [1]⟩ : Comp)),
      (1, ⟨["A"], [1]⟩)]).voxel_zone.get? 0 = some (0, 1) ∧
    (dedup [(0, (⟨["A"], [1]⟩ : Comp)),
      (1, ⟨["A"], [1]⟩)]).voxel_zone.get? 1 = some (1, 1) ∧
    (1 : ℕ) = 1 := by
  have hcompute : (dedup [(0, (⟨["A"], [1]⟩ : Comp)),
      (1, ⟨["A"], [1]⟩)]).voxel_zone = [(0, 1), (1, 1)] := by
    rw [(dedup_eq_clean _).2.1]
    simp [cleanDedup, cleanStep, regUpd, zoneFor, findMatchIdx, isVoidB,
      matchesB_refl]
  refine ⟨by rw [hcompute]; rfl, by rw [hcompute]; rfl, ?_⟩
  exact claim3_identical_same_zone
    [(0, ⟨["A"], [1]⟩), (1, ⟨["A"], [1]⟩)] (by decide)
    0 1 0 1 ⟨["A"], [1]⟩ (by decide) (by decide) (by decide)
    1 1 (by rw [hcompute]; rfl) (by rw [hcompute]; rfl)

/-- C2 counterexample: two non-void voxels with the same material whose
fractions differ by 1.5e-8 (more than the claimed absolute tolerance 1e-8)
are merged into one zone, because the source calls
`np.allclose(..., rtol=1e-8)` which keeps numpy's default `atol=1e-8` and so
accepts differences up to `1e-8 + 1e-8*|registered|`. -/
theorem claim2_counterexample :
    isVoidB ⟨["m"], [(1 : ℚ)]⟩ = false ∧
    isVoidB ⟨["m"], [1 + 3 / 200000000]⟩ = false ∧
    isVoidCI ⟨["m"], [(1 : ℚ)]⟩ = false ∧
    isVoidCI ⟨["m"], [1 + 3 / 200000000]⟩ = false ∧
    |(1 : ℚ) - (1 + 3 / 200000000)| > eps ∧
    (dedup [(0, ⟨["m"], [1]⟩),
      (1, ⟨["m"], [1 + 3 / 200000000]⟩)]).voxel_zone =
      [(0, 1), (1, 1)] := by
  have hm : matchesB ⟨["m"], [1 + 3 / 200000000]⟩ ⟨["m"], [1]⟩ = true := by
    have hq : (decide (|(1 + 3 / 200000000 : ℚ) - 1| ≤
        eps + eps * |(1 : ℚ)|)) = true := by
      rw [decide_eq_true_eq,
        show (1 + 3 / 200000000 : ℚ) - 1 = 3 / 200000000 by ring,
        abs_of_nonneg (by norm_num), abs_one, mul_one, eps]
      norm_num
    simp only [matchesB, allcloseB, List.length_cons, List.length_nil,
      List.zip_cons_cons, List.zip_nil_right, List.all_cons, List.all_nil,
      hq]
    simp
  refine ⟨by decide, by decide, by decide, by decide, ?_, ?_⟩
  · rw [show (1 : ℚ) - (1 + 3 / 200000000) = -(3 / 200000000) by ring,
      abs_neg, abs_of_nonneg (by norm_num), eps]
    norm_num
  · rw [(dedup_eq_clean _).2.1]
    simp [cleanDedup, cleanStep, regUpd, zoneFor, findMatchIdx, isVoidB, hm]

/-- C2 (amended): two voxels sharing a nonzero zone both lie within the
code's tolerance `1e-8 + 1e-8*|registered fraction|` of one registered
composition; hence, when every fraction lies in [0,1], voxels with different
material lists, or with some pair of corresponding fractions more than
4e-8 apart, get different zone numbers.  The original threshold 1e-8 is
refuted by the counterexample. -/
theorem claim2_distinct_zones (voxels : List (ℕ × Comp))
    (_wf : ∀ v ∈ voxels, v.2.mats.length = v.2.fracs.length)
    (bounded : ∀ v ∈ voxels, ∀ q ∈ v.2.fracs, 0 ≤ q ∧ q ≤ 1)
    (p₁ p₂ i₁ i₂ : ℕ) (c₁ c₂ : Comp)
    (h₁ : voxels.get? p₁ = some (i₁, c₁))
    (h₂ : voxels.get? p₂ = some (i₂, c₂))
    (hv₁ : isVoidB c₁ = false) (hv₂ : isVoidB c₂ = false)
    (hdiff : c₁.mats ≠ c₂.mats ∨
      ∃ j q₁ q₂, c₁.fracs.get? j = some q₁ ∧ c₂.fracs.get? j = some q₂ ∧
        |q₁ - q₂| > 4 * eps)
    (n₁ n₂ : ℕ)
    (ha₁ : (dedup voxels).voxel_zone.get? p₁ = some (i₁, n₁))
    (ha₂ : (dedup voxels).voxel_zone.get? p₂ = some (i₂, n₂)) :
    n₁ ≠ n₂ := by
  intro heq
  obtain ⟨hreg, hasg, hz⟩ := dedup_eq_clean voxels
  rw [hasg] at ha₁ ha₂
  have hpos₁ : 0 < n₁ := by
    obtain ⟨n, hn, hiff⟩ := asg_zero_iff voxels p₁ i₁ c₁ h₁
    rw [hn] at ha₁
    simp only [Option.some.injEq, Prod.mk.injEq] at ha₁
    have hnn : n = n₁ := ha₁.2
    rcases Nat.eq_zero_or_pos n₁ with h0 | h0
    · exfalso
      have hz0 : n = 0 := by omega
      have hvd := hiff.mp hz0
      rw [hvd] at hv₁
      exact Bool.noConfusion hv₁
    · exact h0
  have hpos₂ : 0 < n₂ := by
    obtain ⟨n, hn, hiff⟩ := asg_zero_iff voxels p₂ i₂ c₂ h₂
    rw [hn] at ha₂
    simp only [Option.some.injEq, Prod.mk.injEq] at ha₂
    have hnn : n = n₂ := ha₂.2
    rcases Nat.eq_zero_or_pos n₂ with h0 | h0
    · exfalso
      have hz0 : n = 0 := by omega
      have hvd := hiff.mp hz0
      rw [hvd] at hv₂
      exact Bool.noConfusion hv₂
    · exact h0
  obtain ⟨w₁, hw₁, hm₁⟩ :=
    cleanDedup_assigned_matches voxels p₁ i₁ n₁ c₁ h₁ ha₁ hpos₁
  obtain ⟨w₂, hw₂, hm₂⟩ :=
    cleanDedup_assigned_matches voxels p₂ i₂ n₂ c₂ h₂ ha₂ hpos₂
  rw [heq] at hw₁
  rw [hw₂] at hw₁
  simp only [Option.some.injEq] at hw₁
  rw [← hw₁] at hm₁
  simp only [matchesB, Bool.and_eq_true, beq_iff_eq] at hm₁ hm₂
  obtain ⟨hmats₁, hclose₁⟩ := hm₁
  obtain ⟨hmats₂, hclose₂⟩ := hm₂
  rcases hdiff with hd | hd
  · exact hd (hmats₁.trans hmats₂.symm)
  · obtain ⟨j, q₁, q₂, hq₁, hq₂, hgap⟩ := hd
    have hlen₁ : c₁.fracs.length = w₂.fracs.length := allcloseB_length _ _ hclose₁
    have hjlt : j < c₁.fracs.length := (List.get?_eq_some.mp hq₁).1
    have hwj : ∃ wq, w₂.fracs.get? j = some wq := by
      cases hwq : w₂.fracs.get? j with
      | none =>
        exfalso
        have := List.get?_eq_none.mp hwq
        omega
      | some wq => exact ⟨wq, rfl⟩
    obtain ⟨wq, hwq⟩ := hwj
    have hb₁ := allcloseB_point c₁.fracs w₂.fracs j q₁ wq hclose₁ hq₁ hwq
    have hb₂ := allcloseB_point c₂.fracs w₂.fracs j q₂ wq hclose₂ hq₂ hwq
    have hwmem : w₂ ∈ (cleanDedup voxels).1 := List.get?_mem hw₂
    have hwsrc : ∃ v ∈ voxels, v.2 = w₂ := by
      rcases cleanFoldl_reg_entries voxels ([], []) w₂ hwmem with h0 | h0
      · simp at h0
      · exact h0
    obtain ⟨v, hvmem, hveq⟩ := hwsrc
    have hwqb : 0 ≤ wq ∧ wq ≤ 1 := by
      refine bounded v hvmem wq ?_
      rw [hveq]
      exact List.get?_mem hwq
    have habs : |wq| ≤ 1 := abs_le.mpr ⟨by linarith [hwqb.1], hwqb.2⟩
    have heps : (0 : ℚ) < eps := by norm_num [eps]
    have ht₁ : |q₁ - wq| ≤ 2 * eps := by
      have : eps * |wq| ≤ eps * 1 := by
        apply mul_le_mul_of_nonneg_left habs (le_of_lt heps)
      linarith
    have ht₂ : |q₂ - wq| ≤ 2 * eps := by
      have : eps * |wq| ≤ eps * 1 := by
        apply mul_le_mul_of_nonneg_left habs (le_of_lt heps)
      linarith
    have htri : |q₁ - q₂| ≤ |q₁ - wq| + |q₂ - wq| := by
      have h1 : q₁ - q₂ = (q₁ - wq) - (q₂ - wq) := by ring
      rw [h1]
      exact abs_sub (q₁ - wq) (q₂ - wq)
    linarith

/-- C2 witness: two voxels with different material lists get zones 1 and 2,
checked through the amended theorem. -/
theorem claim2_witness :
    (dedup [(0, (⟨["A"], [1]⟩ : Comp)),
      (1, ⟨["B"], [1]⟩)]).voxel_zone.get? 0 = some (0, 1) ∧
    (dedup [(0, (⟨["A"], [1]⟩ : Comp)),
      (1, ⟨["B"], [1]⟩)]).voxel_zone.get? 1 = some (1, 2) ∧
    (1 : ℕ) ≠ 2 := by
  have hm : matchesB ⟨["B"], [(1 : ℚ)]⟩ ⟨["A"], [1]⟩ = false := by
    simp [matchesB]
  have hcompute : (dedup [(0, (⟨["A"], [1]⟩ : Comp)),
      (1, ⟨["B"], [1]⟩)]).voxel_zone = [(0, 1), (1, 2)] := by
    rw [(dedup_eq_clean _).2.1]
    simp [cleanDedup, cleanStep, regUpd, zoneFor, findMatchIdx, isVoidB, hm]
  refine ⟨by rw [hcompute]; rfl, by rw [hcompute]; rfl, ?_⟩
  exact claim2_distinct_zones
    [(0, ⟨["A"], [1]⟩), (1, ⟨["B"], [1]⟩)] (by decide) (by decide)
    0 1 0 1 ⟨["A"], [1]⟩ ⟨["B"], [1]⟩ (by decide) (by decide)
    (by decide) (by decide) (Or.inl (by decide))
    1 2 (by rw [hcompute]; rfl) (by rw [hcompute]; rfl)

/-- C7 (confirmed): nonzero zone numbers form the contiguous range 1..Z
where Z is the final zone counter (the number of registered zones); every
assigned number is at most Z, every number in 1..Z is assigned to some
voxel, and a non-void voxel matching no registered zone at its turn receives
exactly the current counter plus one and is placed at the next registry
slot. -/
theorem claim7_contiguous_first_encounter (voxels : List (ℕ × Comp))
    (_wf : ∀ v ∈ voxels, v.2.mats.length = v.2.fracs.length) :
    (∀ a ∈ (dedup voxels).voxel_zone, a.2 ≤ (dedup voxels).z) ∧
    (∀ k, 0 < k → k ≤ (dedup voxels).z →
      ∃ a ∈ (dedup voxels).voxel_zone, a.2 = k) ∧
    (∀ pre v suf, voxels = pre ++ v :: suf → isVoidB v.2 = false →
      findMatchIdx v.2 (dedup pre).zones_mats = none →
      (dedup voxels).voxel_zone.get? pre.length =
        some (v.1, (dedup pre).z + 1)) := by
  obtain ⟨hreg, hasg, hzl⟩ := dedup_eq_clean voxels
  refine ⟨?_, ?_, ?_⟩
  · intro a ha
    rw [hasg] at ha
    rw [hzl, hreg]
    exact cleanFoldl_zone_le voxels ([], []) (by intro b hb; simp at hb) a ha
  · intro k hk1 hk2
    rw [hzl, hreg] at hk2
    rw [hasg]
    obtain ⟨a, haa, hae⟩ := cleanFoldl_onto voxels ([], [])
      (by intro j hj; simp at hj) (k - 1)
      (by show k - 1 < (cleanDedup voxels).1.length; omega)
    exact ⟨a, haa, by omega⟩
  · intro pre v suf he hv hfind
    obtain ⟨hregp, hasgp, hzp⟩ := dedup_eq_clean pre
    rw [hregp] at hfind
    rw [hasg, he]
    rw [cleanDedup_asg_at pre v suf]
    have hzone : zoneFor (cleanDedup pre).1 v.2 =
        (cleanDedup pre).1.length + 1 := by
      simp [zoneFor, hv, hfind]
    rw [hzone, hzp, hregp]

/-- C7 witness: three voxels (material A, vacuum, material B) produce zones
1, 0, 2: bounded by Z = 2, zone 1 assigned, and the first voxel receives
counter-plus-one, checked through the theorem. -/
theorem claim7_witness :
    (∀ a ∈ (dedup [(0, (⟨["A"], [1]⟩ : Comp)),
      (1, ⟨["mat:Vacuum"], [1]⟩), (2, ⟨["B"], [1]⟩)]).voxel_zone,
      a.2 ≤ (dedup [(0, (⟨["A"], [1]⟩ : Comp)),
        (1, ⟨["mat:Vacuum"], [1]⟩), (2, ⟨["B"], [1]⟩)]).z) ∧
    (∃ a ∈ (dedup [(0, (⟨["A"], [1]⟩ : Comp)),
      (1, ⟨["mat:Vacuum"], [1]⟩), (2, ⟨["B"], [1]⟩)]).voxel_zone,
      a.2 = 1) ∧
    (dedup [(0, (⟨["A"], [1]⟩ : Comp)), (1, ⟨["mat:Vacuum"], [1]⟩),
      (2, ⟨["B"], [1]⟩)]).voxel_zone.get? 0 =
      some (0, (dedup ([] : List (ℕ × Comp))).z + 1) := by
  obtain ⟨p1, p2, p3⟩ := claim7_contiguous_first_encounter
    [(0, ⟨["A"], [1]⟩), (1, ⟨["mat:Vacuum"], [1]⟩), (2, ⟨["B"], [1]⟩)]
    (by decide)
  refine ⟨p1, p2 1 (by decide) (by decide), ?_⟩
  exact p3 [] (0, ⟨["A"], [1]⟩) [(1, ⟨["mat:Vacuum"], [1]⟩),
    (2, ⟨["B"], [1]⟩)] rfl (by decide) rfl

/-- C4 counterexample: with only the y axis active, the code shapes the
array by `im = 1` (x is inactive) and `jm*km = 3`, producing a 1-by-3
array, while the claim's first-active-axis rule demands 3 rows. -/
theorem claim4_counterexample :
    zonesArray [("y", [(0 : ℚ), 1, 2, 3])] [(0, 5), (1, 6), (2, 7)] =
      some [[5, 6, 7]] ∧
    specFirstActiveRows [("y", [(0 : ℚ), 1, 2, 3])] = 3 ∧
    ([[5, 6, 7]] : List (List ℕ)).length = 1 ∧ (1 : ℕ) ≠ 3 := by decide

/-- C4 (amended): a successfully built zone array has exactly `im` rows and
`jm*km` columns, where `im` is the x-axis interval count if x is active and
1 otherwise (similarly `jm`, `km` for y and z).  This equals the claim's
"first active axis" description only when x is active. -/
theorem claim4_shape (bounds : List (String × List ℚ)) (vz : List (ℕ × ℕ))
    (M : List (List ℕ)) (h : zonesArray bounds vz = some M) :
    M.length = im bounds ∧
    ∀ row ∈ M, row.length = jm bounds * km bounds :=
  collectRows_shape vz (jm bounds * km bounds) (im bounds) 0 M h

/-- C4 witness: a 2-interval x-only grid produces a 2-by-1 array, checked
through the amended theorem. -/
theorem claim4_witness :
    ([[1], [2]] : List (List ℕ)).length = im [("x", [(0 : ℚ), 1, 2])] ∧
    ∀ row ∈ ([[1], [2]] : List (List ℕ)), row.length =
      jm [("x", [(0 : ℚ), 1, 2])] * km [("x", [(0 : ℚ), 1, 2])] :=
  claim4_shape [("x", [0, 1, 2])] [(0, 1), (1, 2)] [[1], [2]] (by decide)

/-- C5 counterexample: a voxel map with 3 entries over a 2-cell grid does
not fail: the builder reads only indices 0 and 1 and silently drops the
extra voxel, contradicting the claim that any cardinality mismatch raises. -/
theorem claim5_counterexample :
    zonesArray [("x", [(0 : ℚ), 1, 2])] [(0, 1), (1, 1), (2, 2)] =
      some [[1], [1]] ∧
    ([(0, 1), (1, 1), (2, 2)] : List (ℕ × ℕ)).length = 3 ∧
    im [("x", [(0 : ℚ), 1, 2])] * (jm [("x", [(0 : ℚ), 1, 2])] *
      km [("x", [(0 : ℚ), 1, 2])]) = 2 ∧
    (3 : ℕ) ≠ 2 := by decide

/-- C5 (amended): the array build fails (a `KeyError`, modelled as `none`)
exactly when some voxel index below `im*jm*km` is missing from the
voxel-to-zone map; a map missing an in-range index always raises rather
than padding, but a map with extra voxels beyond the grid size is silently
truncated. -/
theorem claim5_fail_iff (bounds : List (String × List ℚ))
    (vz : List (ℕ × ℕ)) :
    zonesArray bounds vz = none ↔
      ∃ j, j < im bounds * (jm bounds * km bounds) ∧ vz.lookup j = none := by
  unfold zonesArray
  rw [collectRows_none_iff]
  constructor
  · rintro ⟨j, hj, hl⟩
    exact ⟨j, hj, by simpa using hl⟩
  · rintro ⟨j, hj, hl⟩
    exact ⟨j, hj, by simpa using hl⟩

/-- C8 (confirmed): with zero active axes no `IGEOM` branch fires and
`_get_coord_sys` dies (an unbound-local error, modelled as `none`); since
`write_partisn_input` calls it before `_get_zones`, the failure aborts
before any zone computation. -/
theorem claim8_zero_axes (mesh : MeshDiv) (voxels : List (ℕ × Comp))
    (hx : mesh.x.length ≤ 2) (hy : mesh.y.length ≤ 2)
    (hz : mesh.z.length ≤ 2) :
    getCoordSys mesh = none ∧ partisnPipeline mesh voxels = none := by
  have hcs : coordSysStr mesh = [] := by
    unfold coordSysStr
    rw [if_neg (by omega), if_neg (by omega), if_neg (by omega)]
    rfl
  have hg : getCoordSys mesh = none := by
    unfold getCoordSys
    rw [hcs]
    rfl
  refine ⟨hg, ?_⟩
  unfold partisnPipeline
  rw [hg]
  rfl

/-- C8 witness: a mesh with two division points on x and y and none on z,
checked through the theorem. -/
theorem claim8_witness :
    getCoordSys ⟨[0, 1], [0, 1], []⟩ = none ∧
    partisnPipeline ⟨[0, 1], [0, 1], []⟩ [] = none :=
  claim8_zero_axes ⟨[0, 1], [0, 1], []⟩ [] (by decide) (by decide)
    (by decide)

/-- C9 (confirmed): the per-voxel aggregation yields a composition whose
materials are pairwise distinct and listed in first-seen order, whose lists
stay parallel, and whose fraction at each position is the sum of the volume
fractions of exactly the records resolving to that position's material. -/
theorem claim9_aggregator (f : ℕ → String) (recs : List (ℕ × ℚ)) :
    (mergeVoxelComp f recs).mats.Nodup ∧
    (mergeVoxelComp f recs).mats = firstSeen (recs.map (fun r => f r.1)) ∧
    (mergeVoxelComp f recs).mats.length =
      (mergeVoxelComp f recs).fracs.length ∧
    (∀ j m, (mergeVoxelComp f recs).mats.get? j = some m →
      (mergeVoxelComp f recs).fracs.get? j =
        some (((recs.filter (fun q => f q.1 == m)).map Prod.snd).sum)) := by
  obtain ⟨h1, h2, h3⟩ := mergeVoxelComp_inv f recs
  exact ⟨h1, mergeVoxelComp_mats f recs, h2, h3.2⟩

/-- C9 witness: records for cells 1, 2, 1 (materials A, B, A) merge into
position 0 holding material A's filtered fraction sum, checked through the
theorem. -/
theorem claim9_witness :
    (mergeVoxelComp (fun n => if n == 1 then "A" else "B")
        [(1, (1 : ℚ)), (2, 2), (1, 3)]).fracs.get? 0 =
      some ((([((1 : ℕ), (1 : ℚ)), (2, 2), (1, 3)].filter
          (fun q => (if q.1 == 1 then "A" else "B") == "A")).map
        Prod.snd).sum) :=
  (claim9_aggregator (fun n => if n == 1 then "A" else "B")
    [(1, 1), (2, 2), (1, 3)]).2.2.2 0 ("A") (by decide)

/-- C10 (confirmed): `_get_material_lib` creates one `comp_list` dict before
the loop and binds it to every material name, so all entries of the returned
library share one composition: any two entries are equal, the names are
preserved, and every nuclide of every input material appears in every
entry's composition. -/
theorem claim10_shared_material_lib (mats : List (String × List (ℕ × ℚ)))
    (e₁ e₂ : String × List (ℕ × ℚ))
    (h₁ : e₁ ∈ getMaterialLib mats) (h₂ : e₂ ∈ getMaterialLib mats)
    (me : String × List (ℕ × ℚ)) (q : ℕ × ℚ)
    (hme : me ∈ mats) (hq : q ∈ me.2) :
    e₁.2 = e₂.2 ∧
    (getMaterialLib mats).map Prod.fst = mats.map Prod.fst ∧
    q.1 ∈ e₁.2.map Prod.fst := by
  refine ⟨?_, ?_, ?_⟩
  · simp only [getMaterialLib, List.mem_map] at h₁ h₂
    obtain ⟨p₁, _, he₁⟩ := h₁
    obtain ⟨p₂, _, he₂⟩ := h₂
    rw [← he₁, ← he₂]
  · unfold getMaterialLib
    rw [List.map_map]
    rfl
  · simp only [getMaterialLib, List.mem_map] at h₁
    obtain ⟨p₁, _, he₁⟩ := h₁
    rw [← he₁]
    exact (finalCompList_keys mats q.1).mpr ⟨me, hme, q, hq, rfl⟩

/-- C10 witness: with materials M1 (nuclide 10) and M2 (nuclide 20), the
entries for M2 and M1 carry the same composition and M1's nuclide 10 leaks
into M2's entry, checked through the theorem. -/
theorem claim10_witness :
    (("M2", finalCompList [("M1", [((10 : ℕ), (1 : ℚ))]),
      ("M2", [(20, 2)])]) : String × List (ℕ × ℚ)).2 =
      (("M1", finalCompList [("M1", [((10 : ℕ), (1 : ℚ))]),
        ("M2", [(20, 2)])]) : String × List (ℕ × ℚ)).2 ∧
    (getMaterialLib [("M1", [((10 : ℕ), (1 : ℚ))]), ("M2", [(20, 2)])]).map
      Prod.fst =
      [("M1", [((10 : ℕ), (1 : ℚ))]), ("M2", [(20, 2)])].map Prod.fst ∧
    (10 : ℕ) ∈ (("M2", finalCompList [("M1", [((10 : ℕ), (1 : ℚ))]),
      ("M2", [(20, 2)])]) : String × List (ℕ × ℚ)).2.map Prod.fst :=
  claim10_shared_material_lib
    [("M1", [(10, 1)]), ("M2", [(20, 2)])]
    ("M2", finalCompList [("M1", [(10, 1)]), ("M2", [(20, 2)])])
    ("M1", finalCompList [("M1", [(10, 1)]), ("M2", [(20, 2)])])
    (by simp [getMaterialLib]) (by simp [getMaterialLib])
    ("M1", [(10, 1)]) (10, 1) (by simp) (by simp)

end Partisn
